import Mathlib

/-!
Verification of the gitdb object store (Go) against its specification.

Go strings and byte slices are modelled uniformly as `List Nat` (a Go string
is an arbitrary byte sequence).  The relational table is a list of rows in
physical scan order; the SQL engine is modelled as returning the rows of a
point query in table order, batch by batch.  External collaborators (the
zlib codec, the SHA-1 digest, the git subprocess, the filesystem) are not
code of this repository; they are modelled by small executable stand-ins
that are documented where they are defined.  A Go runtime fault (slice out
of range) is modelled by an explicit fault value, never by silently totalizing
the offending access.
-/

namespace Gitdb

/-- Bytes of a Lean string literal, used to write concrete Go strings. -/
def s2b (s : String) : List Nat := s.toList.map Char.toNat

/-- Whitespace bytes recognized by the fmt scanner (space and ASCII control spaces). -/
def isSpaceByte (b : Nat) : Bool := b = 32 || b = 9 || b = 10 || b = 11 || b = 12 || b = 13

/-- ASCII decimal digit byte. -/
def isDigitByte (b : Nat) : Bool := 48 ≤ b && b ≤ 57

/-- Lowercase hexadecimal digit byte, the alphabet of a valid object id. -/
def isHexLowerByte (b : Nat) : Bool := (48 ≤ b && b ≤ 57) || (97 ≤ b && b ≤ 102)

/-- Value of a hex nibble as an ASCII byte (lowercase), used by hex encoding. -/
def hexDigitByte (n : Nat) : Nat := if n < 10 then 48 + n else 87 + n

/-- Model of hex.EncodeToString: each byte becomes two lowercase hex bytes. -/
def hexEncode (l : List Nat) : List Nat :=
  l.flatMap (fun b => [hexDigitByte (b / 16 % 16), hexDigitByte (b % 16)])

/-- Model of strings.Split on a comma: splitting the empty string yields one empty field. -/
def splitOnComma : List Nat → List (List Nat)
  | [] => [[]]
  | c :: rest =>
    if c = 44 then [] :: splitOnComma rest
    else
      match splitOnComma rest with
      | h :: t => (c :: h) :: t
      | [] => [[c]]

/-- Model of strings.Join with a comma separator. -/
def joinComma : List (List Nat) → List Nat
  | [] => []
  | [x] => x
  | x :: (y :: t) => x ++ 44 :: joinComma (y :: t)

/-- Batch size shared by the query and delete loops (the batchRows constant). -/
def batchRows : Nat := 500

/-- Fixed-size batches of a list, the shape of the batched query loop.  The
fuel argument of the helper is only a structural bound; it is always called
with enough (the list length). -/
def chunksOfAux : Nat → List α → List (List α)
  | 0, _ => []
  | _ + 1, [] => []
  | f + 1, a :: t => ((a :: t).take batchRows) :: chunksOfAux f ((a :: t).drop batchRows)

/-- Fixed-size batches of a list. -/
def chunksOf (l : List α) : List (List α) := chunksOfAux l.length l

/-- Go helper minus: elements of a that are not in b, in order. -/
def minus (a b : List (List Nat)) : List (List Nat) :=
  a.filter (fun v => decide (v ∉ b))

/-- Decimal digits of a natural number as ASCII bytes (the %d side of
Sprintf), via a structural fuel helper that is always given enough fuel. -/
def natDigitsAux : Nat → Nat → List Nat
  | 0, n => [48 + n]
  | f + 1, n => if n < 10 then [48 + n] else natDigitsAux f (n / 10) ++ [48 + n % 10]

/-- Decimal ASCII digits of a natural number. -/
def natDigits (n : Nat) : List Nat := natDigitsAux n n

/-- Numeric value of a run of ASCII digit bytes. -/
def digitsVal (ds : List Nat) : Nat := ds.foldl (fun a d => a * 10 + (d - 48)) 0

/-- Index of the first NUL byte; equals the length when absent (Go IndexByte
returns -1 there, and the caller treats both the same way through its range check). -/
def nulIndex : List Nat → Nat
  | [] => 0
  | b :: l => if b = 0 then 0 else nulIndex l + 1

/-! ## Object codec (obj.go) -/

/-- Lightweight representation of a git object (gitObj): id, kind and raw body.
The field ty is the Go field Type (a keyword in Lean). -/
structure gitObj where
  Oid : List Nat
  ty : List Nat
  Body : List Nat
deriving DecidableEq

/-- Validity of an object id: exactly 40 lowercase hex bytes (the oidRegex test). -/
def isOid (l : List Nat) : Bool := l.length = 40 && l.all isHexLowerByte

/-- Tree-case scan of referredOids: find each NUL, emit the hex of the following
20 bytes, and jump past them; the loop stops before len(body) - 20. -/
def treeRefsAux (body : List Nat) (i : Nat) : List (List Nat) :=
  if h : i < body.length - 20 then
    if body.getD i 0 = 0 then
      hexEncode ((body.drop (i + 1)).take 20) :: treeRefsAux body (i + 21)
    else treeRefsAux body (i + 1)
  else []
termination_by body.length - i
decreasing_by all_goals omega

/-- Commit-case scan of referredOids: 40-byte fields at offsets 5, 53, 101, …
while each is a valid oid.  Go slices body[i : i+40] without a bound check, so
the scan faults (returns none) when i < len(body) but i + 40 > len(body). -/
def commitRefsAux (body : List Nat) (i : Nat) : Option (List (List Nat)) :=
  if h : i < body.length then
    if i + 40 ≤ body.length then
      let oid := (body.drop i).take 40
      if isOid oid then (commitRefsAux body (i + 48)).map (oid :: ·)
      else some []
    else none
  else some []
termination_by body.length - i
decreasing_by omega

/-- Dependency edges of an object (referredOids).  none models a Go runtime
fault (slice out of range) in the commit case. -/
def referredOids (o : gitObj) : Option (List (List Nat)) :=
  if o.ty = s2b "tree" then some (treeRefsAux o.Body 0)
  else if o.ty = s2b "commit" then commitRefsAux o.Body 5
  else some []

/-! ## Tree parser (tree.go) -/

/-- Parsed tree record (treeItem): child id in hex, name bytes, mode. -/
structure treeItem where
  Oid : List Nat
  Name : List Nat
  Mode : Nat
deriving DecidableEq

/-- Directory-bit test (IsTree): the 0100000 bit of the mode is unset. -/
def treeItemIsTree (ti : treeItem) : Bool := ti.Mode &&& 0o100000 = 0

/-- Model of strconv.ParseUint(s, 8, 64) with the error ignored: syntax errors
give 0, range errors give the maximal 64-bit value (both as Go does). -/
def parseOctal (l : List Nat) : Nat :=
  if l ≠ [] ∧ ∀ b ∈ l, 48 ≤ b ∧ b ≤ 55 then
    let v := l.foldl (fun a d => a * 8 + (d - 48)) 0
    if v < 2 ^ 64 then v else 2 ^ 64 - 1
  else 0

/-- One checked step of parseTree.  Every Go slice access is guarded by the
exact bound under which Go would panic; a trip of one of those guards would
surface as none.  The totality theorem below shows the guards never trip, in
particular the scan never expects a digest past len(body) - 20. -/
def parseTreeAux (body : List Nat) (pos startPos spacePos : Nat) :
    Option (List treeItem) :=
  if h : pos < body.length - 20 then
    if hb : pos < body.length then
      if body.getD pos 0 = 32 then parseTreeAux body (pos + 1) startPos pos
      else if body.getD pos 0 = 0 then
        if startPos ≥ spacePos ∨ spacePos + 1 ≥ pos then
          parseTreeAux body (pos + 1) startPos spacePos
        else
          if hdig : pos + 21 ≤ body.length then
            if hname : spacePos + 1 ≤ pos ∧ pos ≤ body.length then
              if hmode : startPos ≤ spacePos ∧ spacePos ≤ body.length then
                (parseTreeAux body (pos + 1) (pos + 21) spacePos).map
                  (fun rest =>
                    { Oid := hexEncode ((body.drop (pos + 1)).take 20)
                      Name := (body.drop (spacePos + 1)).take (pos - (spacePos + 1))
                      Mode := parseOctal ((body.drop startPos).take (spacePos - startPos)) % 2 ^ 32
                    } :: rest)
              else none
            else none
          else none
      else parseTreeAux body (pos + 1) startPos spacePos
    else none
  else some []
termination_by body.length - pos
decreasing_by all_goals omega

/-- Checked embedding of parseTree. -/
def parseTreeChecked (body : List Nat) : Option (List treeItem) :=
  parseTreeAux body 0 0 0

/-- Total tree parse, justified by the totality theorem below. -/
def parseTree (body : List Nat) : List treeItem :=
  (parseTreeChecked body).getD []

/-! ## Model of the external compression and digest libraries

compress/zlib and crypto/sha1 are external libraries, not code of this
repository.  They are modelled executably, keeping exactly the behaviours the
decoder depends on: a zlib stream is a 2-byte header, the payload, and a
4-byte checksum trailer; zlib.NewReader fails exactly when the 2-byte header
is malformed; a checksum mismatch or truncation is an error reported only at
the end of reading, after the recovered payload has already been delivered
(which the Go caller discards via an ignored io.Copy error).  The SHA-1
digest is abstracted as a fixed injective-in-practice deterministic hash; no
claim depends on the SHA-1 compression function itself. -/

/-- Adler-32 checksum (the zlib trailer), big-endian 4 bytes. -/
def adler32 (l : List Nat) : List Nat :=
  let p := l.foldl (fun s c => ((s.1 + c % 256) % 65521, (s.2 + s.1 + c % 256) % 65521)) (1, 0)
  let v := p.2 * 65536 + p.1
  [v / 2 ^ 24 % 256, v / 2 ^ 16 % 256, v / 2 ^ 8 % 256, v % 256]

/-- Deflate-side model: header bytes 0x78 0x9c, raw payload, Adler-32 trailer. -/
def zlibCompress (data : List Nat) : List Nat :=
  120 :: 156 :: data ++ adler32 data

/-- Inflate-side model.  error () is a zlib.NewReader failure (bad header).
ok (b, true) is a clean full read; ok (b, false) means reading hit an error
mid-stream (truncation or checksum mismatch) after recovering b — Go io.Copy
reports that error, and the decoder below ignores it, as the source does. -/
def zlibInflate : List Nat → Except Unit (List Nat × Bool)
  | 120 :: 156 :: p =>
    if p.length < 4 then .ok ([], false)
    else .ok (p.take (p.length - 4),
      adler32 (p.take (p.length - 4)) = p.drop (p.length - 4))
  | _ => .error ()

/-- Truth of "zlib decompression fails on z": either the header is rejected or
reading the stream ends in an error rather than a clean EOF. -/
def zlibFails (z : List Nat) : Bool :=
  match zlibInflate z with
  | .error _ => true
  | .ok (_, clean) => !clean

/-- Stand-in for the SHA-1 digest in lowercase hex (fmt.Sprintf %040x of
sha1.Sum): a deterministic 160-bit fold rendered as 40 hex bytes. -/
def sha1hex (l : List Nat) : List Nat :=
  let v := l.foldl (fun a c => (a * 257 + c + 1) % 2 ^ 160) 0
  (List.range 40).map (fun i => hexDigitByte (v / 16 ^ (39 - i) % 16))

/-- Encoder (zcontent): deflate of the header "kind len\x00" followed by the body. -/
def zcontent (o : gitObj) : List Nat :=
  zlibCompress (o.ty ++ 32 :: natDigits o.Body.length ++ 0 :: o.Body)

/-- Decode errors.  zlibHeader is the error zlib.NewReader returns (surfaced
unchanged by the Go code); the others are the errInvalidZcontent cases. -/
inductive DecErr where
  | zlibHeader
  | noDelim
  | badHeader
  | sizeMismatch
deriving DecidableEq

/-- Model of the %s verb of fmt.Sscanf: skip scanner whitespace, then a
maximal nonempty run of non-whitespace bytes. -/
def scanStrB (l : List Nat) : Option (List Nat × List Nat) :=
  let l1 := l.dropWhile isSpaceByte
  let tok := l1.takeWhile (fun b => !isSpaceByte b)
  if tok = [] then none else some (tok, l1.drop tok.length)

/-- Maximal nonempty run of decimal digits with its value and the rest. -/
def digitsRun (l : List Nat) : Option (Nat × List Nat) :=
  if l.takeWhile isDigitByte = [] then none
  else some (digitsVal (l.takeWhile isDigitByte), l.drop (l.takeWhile isDigitByte).length)

/-- Sign handling of the %d verb after whitespace skipping. -/
def scanIntAux (l : List Nat) : Option (Int × List Nat) :=
  if l.headD 0 = 45 then (digitsRun (l.drop 1)).map (fun p => (-(p.1 : Int), p.2))
  else if l.headD 0 = 43 then (digitsRun (l.drop 1)).map (fun p => ((p.1 : Int), p.2))
  else (digitsRun l).map (fun p => ((p.1 : Int), p.2))

/-- Model of the %d verb of fmt.Sscanf: skip scanner whitespace, optional
sign, then a maximal nonempty run of decimal digits, as an integer. -/
def scanIntB (l : List Nat) : Option (Int × List Nat) :=
  scanIntAux (l.dropWhile isSpaceByte)

/-- Decoder (newGitObjFromZcontent): inflate — with the io.Copy error ignored —
then locate the first NUL as the header delimiter, derive the id by hashing
the full inflated bytes, parse the header with Sscanf "%s %d", and check the
declared size against the actual body length. -/
def newGitObjFromZcontent (z : List Nat) : Except DecErr gitObj :=
  match zlibInflate z with
  | .error _ => .error .zlibHeader
  | .ok (b, _ignoredCopyErr) =>
    let i := nulIndex b
    if i = 0 ∨ b.length ≤ i then .error .noDelim
    else
      match scanStrB (b.take i) with
      | none => .error .badHeader
      | some (ty, rest) =>
        match scanIntB rest with
        | none => .error .badHeader
        | some (size, _) =>
          if size = ((b.drop (i + 1)).length : Int) then
            .ok { Oid := sha1hex b, ty := ty, Body := b.drop (i + 1) }
          else .error .sizeMismatch

/-! ## Store model (db.go)

The table is a list of rows in physical scan order.  A point query
(WHERE oid IN batch) returns the matching rows in table order; the batched
query loop concatenates the batches.  All claims are stated against this
deterministic model of the engine's row order. -/

/-- Stored row: primary key, type column, compressed content, comma-joined
referred cache. -/
structure Row where
  oid : List Nat
  ty : List Nat
  zdata : List Nat
  referred : List Nat
deriving DecidableEq

/-- Batched point query (queryByOids): one query per batchRows-sized chunk of
the requested ids, each returning the table rows whose key is in the chunk;
an empty request runs no query. -/
def queryByOids (store : List Row) (oids : List (List Nat)) : List Row :=
  (chunksOf oids).flatMap (fun c => store.filter (fun r => decide (r.oid ∈ c)))

/-- Ids of the input not present as a primary key (unseenOids): the existing
set is fetched by an id-only projection, then subtracted preserving order. -/
def unseenOids (store : List Row) (oids : List (List Nat)) : List (List Nat) :=
  minus oids ((queryByOids store oids).map (·.oid))

/-- Inner scan of one BFS round: for each split referred value that is
nonempty and unvisited, mark it visited and append it to the next frontier
(the Go loop body over strings.Split(referred, ",")). -/
def discover (visited next : List (List Nat)) :
    List (List Nat) → List (List Nat) × List (List Nat)
  | [] => (visited, next)
  | v :: vs =>
    if v ≠ [] ∧ v ∉ visited then discover (v :: visited) (next ++ [v]) vs
    else discover visited next vs

/-- Referred values of a row list, split on commas, in row order. -/
def refsOfRows (rows : List Row) : List (List Nat) :=
  rows.flatMap (fun r => splitOnComma r.referred)

/-- Every referred value that can ever be discovered (used as the termination
measure of the BFS loop). -/
def allRefs (store : List Row) : List (List Nat) := refsOfRows store

/-- Breadth-first loop of bfsOids: expand the frontier through the referred
column of its rows until it is empty, appending each newly discovered id to
the result. -/
def bfsLoop (store : List Row) (visited result cur : List (List Nat)) :
    List (List Nat) :=
  if cur = [] then result
  else
    bfsLoop store (discover visited [] (refsOfRows (queryByOids store cur))).1
      (result ++ (discover visited [] (refsOfRows (queryByOids store cur))).2)
      (discover visited [] (refsOfRows (queryByOids store cur))).2
termination_by
  ((allRefs store).filter (fun a => decide (a ∉ visited))).length * 2 +
    (if cur = [] then 0 else 1)
decreasing_by
  rename_i hcur
  have hdisc : ∀ (l vis nxt : List (List Nat)),
      (∀ x, x ∈ vis → x ∈ (discover vis nxt l).1) ∧
      (∀ x, x ∈ (discover vis nxt l).2 →
        x ∈ nxt ∨ (x ∈ l ∧ x ∈ (discover vis nxt l).1 ∧ x ∉ vis)) := by
    intro l
    induction l with
    | nil =>
      intro vis nxt
      refine ⟨fun x hx => by simpa [discover] using hx, fun x hx => ?_⟩
      left; simpa [discover] using hx
    | cons v vs ih =>
      intro vis nxt
      by_cases hc : v ≠ [] ∧ v ∉ vis
      · rw [show discover vis nxt (v :: vs) = discover (v :: vis) (nxt ++ [v]) vs by
          simp [discover, hc]]
        refine ⟨fun x hx => (ih (v :: vis) (nxt ++ [v])).1 x (by simp [hx]), fun x hx => ?_⟩
        rcases (ih (v :: vis) (nxt ++ [v])).2 x hx with hx2 | ⟨hxl, hxv, hxnv⟩
        · rcases List.mem_append.mp hx2 with h | h
          · exact Or.inl h
          · have hxv2 : x = v := by simpa using h
            subst hxv2
            exact Or.inr ⟨List.mem_cons_self _ _,
              (ih (x :: vis) (nxt ++ [x])).1 x (List.mem_cons_self _ _), hc.2⟩
        · exact Or.inr ⟨List.mem_cons_of_mem _ hxl, hxv, fun hxx => hxnv (List.mem_cons_of_mem _ hxx)⟩
      · rw [show discover vis nxt (v :: vs) = discover vis nxt vs by simp [discover]; tauto]
        refine ⟨(ih vis nxt).1, fun x hx => ?_⟩
        rcases (ih vis nxt).2 x hx with h | ⟨hxl, hxv, hxnv⟩
        · exact Or.inl h
        · exact Or.inr ⟨List.mem_cons_of_mem _ hxl, hxv, hxnv⟩
  have hsub : ∀ x, x ∈ refsOfRows (queryByOids store cur) → x ∈ allRefs store := by
    intro x hx
    simp only [refsOfRows, allRefs, List.mem_flatMap] at hx ⊢
    obtain ⟨r, hr, hxr⟩ := hx
    refine ⟨r, ?_, hxr⟩
    simp only [queryByOids, List.mem_flatMap] at hr
    obtain ⟨c, _, hrf⟩ := hr
    exact (List.mem_filter.mp hrf).1
  have hmono : ∀ (p q : List Nat → Bool) (l : List (List Nat)),
      (∀ a, p a = true → q a = true) →
      (l.filter p).length ≤ (l.filter q).length := by
    intro p q l hpq
    induction l with
    | nil => simp
    | cons a t ih =>
      by_cases hpa : p a = true
      · rw [List.filter_cons_of_pos hpa, List.filter_cons_of_pos (hpq a hpa)]
        simpa using ih
      · rw [List.filter_cons_of_neg (by simpa using hpa)]
        by_cases hqa : q a = true
        · rw [List.filter_cons_of_pos hqa]
          exact Nat.le_succ_of_le ih
        · rw [List.filter_cons_of_neg (by simpa using hqa)]
          exact ih
  have hstrict : ∀ (p q : List Nat → Bool) (l : List (List Nat)) (a₀ : List Nat),
      (∀ a, p a = true → q a = true) → a₀ ∈ l → q a₀ = true → p a₀ = false →
      (l.filter p).length < (l.filter q).length := by
    intro p q l a₀ hpq ha₀ hq hp
    induction l with
    | nil => simp at ha₀
    | cons a t ih =>
      rcases List.mem_cons.mp ha₀ with rfl | hat
      · rw [List.filter_cons_of_neg (by simp [hp]), List.filter_cons_of_pos hq]
        exact Nat.lt_succ_of_le (hmono p q t hpq)
      · by_cases hpa : p a = true
        · rw [List.filter_cons_of_pos hpa, List.filter_cons_of_pos (hpq a hpa)]
          simpa using ih hat
        · rw [List.filter_cons_of_neg (by simpa using hpa)]
          by_cases hqa : q a = true
          · rw [List.filter_cons_of_pos hqa]
            exact Nat.lt_succ_of_le (Nat.le_of_lt (ih hat))
          · rw [List.filter_cons_of_neg (by simpa using hqa)]
            exact ih hat
  have hvis : ∀ x, x ∈ visited →
      x ∈ (discover visited [] (refsOfRows (queryByOids store cur))).1 :=
    fun x hx => (hdisc (refsOfRows (queryByOids store cur)) visited []).1 x hx
  have himp : ∀ a : List Nat,
      decide (a ∉ (discover visited [] (refsOfRows (queryByOids store cur))).1) = true →
      decide (a ∉ visited) = true := by
    intro a ha
    simp only [decide_eq_true_eq] at ha ⊢
    exact fun hmem => ha (hvis a hmem)
  rw [if_neg hcur]
  by_cases hnext : (discover visited [] (refsOfRows (queryByOids store cur))).2 = []
  · rw [hnext, if_pos rfl]
    have := hmono _ _ (allRefs store) himp
    omega
  · rw [if_neg hnext]
    obtain ⟨x, hxn⟩ : ∃ x, x ∈ (discover visited [] (refsOfRows (queryByOids store cur))).2 :=
      List.exists_mem_of_ne_nil _ hnext
    have hx2 := (hdisc (refsOfRows (queryByOids store cur)) visited []).2 x hxn
    rcases hx2 with hcn | ⟨hxl, hxv, hxnv⟩
    · simp at hcn
    · have hstep := hstrict _ _ (allRefs store) x himp (hsub x hxl)
        (by simpa using hxnv) (by simp [hxv])
      omega

/-- Breadth-first closure (bfsOids): the result is the initial ids followed by
every newly reachable referred id in discovery order; ids in skipOids are
never discovered. -/
def bfsOids (store : List Row) (initOids skipOids : List (List Nat)) :
    List (List Nat) :=
  bfsLoop store (initOids ++ skipOids) initOids initOids

/-- Stored direct dependency edge: some row keyed u has v among its split
referred values (nonempty values only, as the traversal filters them). -/
def refEdge (store : List Row) (u v : List Nat) : Prop :=
  ∃ r ∈ store, r.oid = u ∧ v ∈ splitOnComma r.referred ∧ v ≠ []

/-- Boolean form of the stored dependency edge, for concrete checking. -/
def refEdgeB (store : List Row) (u v : List Nat) : Bool :=
  store.any (fun r =>
    decide (r.oid = u) && decide (v ∈ splitOnComma r.referred) && decide (v ≠ []))

/-- Reachability along stored referred edges (reflexive-transitive). -/
inductive Reaches (store : List Row) : List Nat → List Nat → Prop
  | refl (a : List Nat) : Reaches store a a
  | tail {a b c : List Nat} :
      Reaches store a b → refEdge store b c → Reaches store a c

/-! ## Garbage collection (GC) -/

/-- Sequential batched DELETE: each batch removes the rows whose key is in it. -/
def deleteBatches (store : List Row) (batches : List (List (List Nat))) : List Row :=
  batches.foldl (fun st batch => st.filter (fun r => decide (r.oid ∉ batch))) store

/-- Mark and sweep (GC): mark is the breadth-first closure of the kept ids
with an empty skip set; sweep scans every stored id, collects the unreachable
ones in scan order, deletes them in batchRows-sized batches, and returns them. -/
def GC (store : List Row) (oids : List (List Nat)) :
    List Row × List (List Nat) :=
  let reach := bfsOids store oids []
  let deletable := (store.map (·.oid)).filter (fun o => decide (o ∉ reach))
  (deleteBatches store (chunksOf deletable), deletable)

/-! ## Destination repository model (repo.go)

The git working repository written by Export is external to the store: it is
modelled as the set of object ids it already has (present, which also answers
hasOid and the rev-list --all listing), the raw objects written to it in
order, and its ref files. -/

structure Repo where
  present : List (List Nat)
  written : List (List Nat × List Nat)
  refs : List (List Nat × List Nat)
deriving DecidableEq

/-- Existence probe (hasOid, git cat-file -e). -/
def hasOid (r : Repo) (oid : List Nat) : Bool := decide (oid ∈ r.present)

/-- The rev-list --all id listing of the destination. -/
def listAllOids (r : Repo) : List (List Nat) := r.present

/-- Absolute path test (filepath.IsAbs on unix): leading slash. -/
def isAbsPath (p : List Nat) : Bool := p.headD 0 = 47

/-- Substring test of strings.Contains(ref, ".."): two consecutive dots
anywhere in the byte string. -/
def hasDotDot : List Nat → Bool
  | a :: b :: rest => (a = 46 && b = 46) || hasDotDot (b :: rest)
  | _ => false

/-- Split on slash bytes (components of a path). -/
def splitSlash : List Nat → List (List Nat)
  | [] => [[]]
  | c :: rest =>
    if c = 47 then [] :: splitSlash rest
    else
      match splitSlash rest with
      | h :: t => (c :: h) :: t
      | [] => [[c]]

/-- Join components with slash bytes. -/
def joinSlash : List (List Nat) → List Nat
  | [] => []
  | [x] => x
  | x :: (y :: t) => x ++ 47 :: joinSlash (y :: t)

/-- Element processing of filepath.Clean: drop empty and dot components, let a
dot-dot component cancel the previous one (or vanish at a root, or pile up
when relative).  The accumulator is the reversed output stack. -/
def cleanStack (acc : List (List Nat)) (rooted : Bool) :
    List (List Nat) → List (List Nat)
  | [] => acc
  | c :: rest =>
    if c = [] ∨ c = [46] then cleanStack acc rooted rest
    else if c = [46, 46] then
      match acc with
      | [] => if rooted then cleanStack [] rooted rest
              else cleanStack [[46, 46]] rooted rest
      | a :: t =>
        if a = [46, 46] then cleanStack ([46, 46] :: a :: t) rooted rest
        else cleanStack t rooted rest
    else cleanStack (c :: acc) rooted rest

/-- Model of path/filepath.Clean (lexical shortest equivalent path). -/
def cleanPath (p : List Nat) : List Nat :=
  if p = [] then [46]
  else
    let comps := (cleanStack [] (isAbsPath p) (splitSlash p)).reverse
    if comps = [] then (if isAbsPath p then [47] else [46])
    else (if isAbsPath p then [47] else []) ++ joinSlash comps

/-- Prefix test on byte strings (strings.HasPrefix). -/
def startsWith : List Nat → List Nat → Bool
  | [], _ => true
  | _ :: _, [] => false
  | a :: pt, b :: lt => a = b && startsWith pt lt

/-- Allow-listed cleaned ref forms: HEAD, refs/tags/*, refs/heads/*. -/
def refAllowed (ref : List Nat) : Bool :=
  ref = s2b "HEAD" || startsWith (s2b "refs/tags/") ref ||
    startsWith (s2b "refs/heads/") ref

/-- Exact rejection condition of writeRef in the code: absolute, or ".."
appears anywhere as a substring, or the cleaned name is outside the allow
list. -/
def unsafeRefCheck (ref : List Nat) : Bool :=
  isAbsPath ref || hasDotDot ref || !(refAllowed (cleanPath ref))

/-- Rejection condition as the specification words it: absolute path, a
path-traversal segment (a ".." component), or a name outside the allow-listed
forms.  Stated from the spec for comparison with unsafeRefCheck. -/
def specUnsafeRef (ref : List Nat) : Bool :=
  isAbsPath ref || (splitSlash ref).any (fun c => decide (c = [46, 46])) ||
    !(refAllowed ref)

/-- Ref write (writeRef): reject unsafe names, then write the file at the
cleaned path (modelled as a latest-wins entry in refs). -/
def writeRef (r : Repo) (ref oid : List Nat) : Except Unit Repo :=
  if isAbsPath ref || hasDotDot ref then .error ()
  else if refAllowed (cleanPath ref) then
    .ok { r with refs := (cleanPath ref, oid) :: r.refs }
  else .error ()

/-- Raw object write (writeRawObject): a no-op when the object file already
exists, otherwise append.  Go slices oid[0:2] and oid[2:40], so an id shorter
than 40 bytes faults (none). -/
def writeRawObject (r : Repo) (oid z : List Nat) : Option Repo :=
  if 40 ≤ oid.length then
    if oid ∈ r.present ∨ oid ∈ r.written.map (·.1) then some r
    else some { r with written := r.written ++ [(oid, z)] }
  else none

/-! ## Export (db.go) -/

/-- Content map built by the export query: later rows overwrite earlier ones,
like the Go map assignment. -/
def zmapGet (rows : List Row) (o : List Nat) : Option (List Nat) :=
  ((rows.filter (fun r => decide (r.oid = o))).getLast?).map (·.zdata)

inductive ExpErr where
  | missingObject (o : List Nat)
  | unsafeRef
  | fault
deriving DecidableEq

/-- Write loop of Export over an id sequence (already reversed by the caller):
each id must have a content row (errMissingObject otherwise), and each write
can fault on a short id. -/
def exportWriteLoop (r : Repo) (rows : List Row) :
    List (List Nat) → Except ExpErr Repo
  | [] => .ok r
  | o :: rest =>
    match zmapGet rows o with
    | none => .error (.missingObject o)
    | some z =>
      match writeRawObject r o z with
      | none => .error .fault
      | some r2 => exportWriteLoop r2 rows rest

/-- Export: default the ref name to a generated tag; if the destination
already has the id only (re)write the ref; otherwise compute the closure of
the id skipping everything the destination lists, fetch the content rows, and
write them in reverse discovery order, then write the ref. -/
def Export (store : List Row) (r : Repo) (oid ref : List Nat) :
    Except ExpErr (Repo × List (List Nat)) :=
  let refName := if ref = [] then s2b "refs/tags/gitdb/" ++ oid else ref
  if hasOid r oid then
    match writeRef r refName oid with
    | .error _ => .error .unsafeRef
    | .ok r2 => .ok (r2, [])
  else
    match exportWriteLoop r (queryByOids store (bfsOids store [oid] (listAllOids r)))
        (bfsOids store [oid] (listAllOids r)).reverse with
    | .error e => .error e
    | .ok r2 =>
      match writeRef r2 refName oid with
      | .error _ => .error .unsafeRef
      | .ok r3 => .ok (r3, bfsOids store [oid] (listAllOids r))

/-! ## Import (db.go) and the external source -/

/-- All-or-error sequential mapping, matching a Go loop that aborts on the
first error. -/
def exMapM (f : α → Except ε β) : List α → Except ε (List β)
  | [] => .ok []
  | a :: l =>
    match f a with
    | .error e => .error e
    | .ok b =>
      match exMapM f l with
      | .error e => .error e
      | .ok bs => .ok (b :: bs)

/-- Object payload held by the external source for one id. -/
structure SourceObj where
  ty : List Nat
  Body : List Nat
deriving DecidableEq

/-- External source repository: its id-to-object table.  The id listing of a
ref (git rev-list --objects) is passed to Import separately, since its
semantics belong to the source. -/
structure SourceRepo where
  objs : List (List Nat × SourceObj)
deriving DecidableEq

def srcLookup (src : SourceRepo) (oid : List Nat) : Option SourceObj :=
  ((src.objs.filter (fun p => decide (p.1 = oid))).head?).map (·.2)

/-- One batch element of repo.readObjects: the object stored under the id,
with the id itself as its header id; a missing id is an error. -/
def srcReadOne (src : SourceRepo) (o : List Nat) : Except Unit gitObj :=
  match srcLookup src o with
  | some so => .ok { Oid := o, ty := so.ty, Body := so.Body }
  | none => .error ()

/-- Model of repo.readObjects (git cat-file --batch): exactly one object per
requested id in input order, whose header id is the requested id; any missing
id is a count-mismatch error. -/
def srcReadObjects (src : SourceRepo) (oids : List (List Nat)) :
    Except Unit (List gitObj) :=
  exMapM (srcReadOne src) oids

inductive ImpErr where
  | srcErr
  | fault
  | dbErr
deriving DecidableEq

/-- Primary-key INSERT: fails on a duplicate key. -/
def insertRow (store : List Row) (r : Row) : Except ImpErr (List Row) :=
  if store.any (fun q => decide (q.oid = r.oid)) then .error .dbErr
  else .ok (store ++ [r])

def insertAll (store : List Row) : List Row → Except ImpErr (List Row)
  | [] => .ok store
  | r :: rest =>
    match insertRow store r with
    | .error e => .error e
    | .ok st2 => insertAll st2 rest

/-- Row written by Import for one source object: key, compressed content,
type, and the comma-joined referred cache.  referredOids can fault. -/
def rowOfObj (o : gitObj) : Except ImpErr Row :=
  match referredOids o with
  | none => .error .fault
  | some refs =>
    .ok { oid := o.Oid, ty := o.ty, zdata := zcontent o, referred := joinComma refs }

/-- Import: list the source ids of the ref (listing, whose head is the
resolved id), keep the unseen ones, fetch and encode them, and insert one row
each; returns the resolved id, the imported ids, and the new store. -/
def Import (store : List Row) (src : SourceRepo) (listing : List (List Nat)) :
    Except ImpErr (List Nat × List (List Nat) × List Row) :=
  if listing = [] then .ok ([], [], store)
  else
    match srcReadObjects src (unseenOids store listing) with
    | .error _ => .error .srcErr
    | .ok objs =>
      match exMapM rowOfObj objs with
      | .error e => .error e
      | .ok rows =>
        match insertAll store rows with
        | .error e => .error e
        | .ok st2 => .ok (listing.headD [], unseenOids store listing, st2)

/-! ## Read paths: readObjects and ReadTree (db.go) -/

inductive ReadErr where
  | decodeFail
  | shaMismatch
  | notFound
deriving DecidableEq

/-- Lookup in the decoded-object map; later rows overwrote earlier ones. -/
def lookupObj (m : List (List Nat × gitObj)) (oid : List Nat) : Option gitObj :=
  ((m.filter (fun p => decide (p.1 = oid))).getLast?).map (·.2)

/-- Per-row step of readObjects: decode the compressed content and verify the
derived id against the row key. -/
def decodeRow (r : Row) : Except ReadErr (List Nat × gitObj) :=
  match newGitObjFromZcontent r.zdata with
  | .error _ => .error ReadErr.decodeFail
  | .ok o => if o.Oid = r.oid then .ok (r.oid, o) else .error ReadErr.shaMismatch

/-- Per-id lookup step of readObjects: a requested id missing from the decoded
map is a not-found error. -/
def lookupOne (m : List (List Nat × gitObj)) (oid : List Nat) :
    Except ReadErr gitObj :=
  match lookupObj m oid with
  | some o => .ok o
  | none => .error ReadErr.notFound

/-- Batch row read (readObjects): decode every fetched row, verify the derived
id against the key, then return one object per requested id in input order. -/
def readObjects (store : List Row) (oids : List (List Nat)) :
    Except ReadErr (List gitObj) :=
  match exMapM decodeRow (queryByOids store oids) with
  | .error e => .error e
  | .ok m => exMapM (lookupOne m) oids

/-- Outcome of ReadTree: a Go runtime fault, loop-bound exhaustion of the
model (the Go loop has no such bound), an error return, or success. -/
inductive RTRes where
  | fault
  | timeout
  | err
  | ok (paths : List (List Nat)) (oids : List (List Nat))
deriving DecidableEq

/-- Model of filepath.Join of a prefix and a name: empty parts dropped, then
cleaned. -/
def joinPath (pfx name : List Nat) : List Nat :=
  if pfx = [] then cleanPath name else cleanPath (pfx ++ 47 :: name)

/-- Prefix map lookup with the Go zero value for a missing key. -/
def lookupPfx (pfxs : List (List Nat × List Nat)) (oid : List Nat) : List Nat :=
  (((pfxs.filter (fun p => decide (p.1 = oid))).head?).map (·.2)).getD []

/-- Per-entry processing of a tree object's parsed items: sub-trees extend the
prefix map (latest wins) and the next frontier, leaves are emitted. -/
def procItems (pfx : List Nat)
    (pfxs : List (List Nat × List Nat)) (next paths outOids : List (List Nat)) :
    List treeItem →
      List (List Nat × List Nat) × List (List Nat) × List (List Nat) × List (List Nat)
  | [] => (pfxs, next, paths, outOids)
  | ti :: rest =>
    if treeItemIsTree ti then
      procItems pfx ((ti.Oid, joinPath pfx ti.Name) :: pfxs) (next ++ [ti.Oid])
        paths outOids rest
    else
      procItems pfx pfxs next (paths ++ [joinPath pfx ti.Name])
        (outOids ++ [ti.Oid]) rest

/-- Per-object processing of one ReadTree round.  A commit redirects to its
tree id extracted positionally as body[5:45], which faults (none) when the
body is shorter than 45 bytes; a tree dispatches its parsed items; other
kinds are ignored. -/
def processObjs (pfxs : List (List Nat × List Nat))
    (next paths outOids : List (List Nat)) :
    List gitObj →
      Option (List (List Nat × List Nat) × List (List Nat) × List (List Nat) × List (List Nat))
  | [] => some (pfxs, next, paths, outOids)
  | o :: rest =>
    if o.ty = s2b "commit" then
      if 45 ≤ o.Body.length then
        processObjs pfxs (next ++ [(o.Body.drop 5).take 40]) paths outOids rest
      else none
    else if o.ty = s2b "tree" then
      processObjs
        (procItems (lookupPfx pfxs o.Oid) pfxs next paths outOids (parseTree o.Body)).1
        (procItems (lookupPfx pfxs o.Oid) pfxs next paths outOids (parseTree o.Body)).2.1
        (procItems (lookupPfx pfxs o.Oid) pfxs next paths outOids (parseTree o.Body)).2.2.1
        (procItems (lookupPfx pfxs o.Oid) pfxs next paths outOids (parseTree o.Body)).2.2.2
        rest
    else processObjs pfxs next paths outOids rest

/-- Frontier loop of ReadTree.  The Go loop has no iteration bound (and no
visited set), so the model carries an explicit bound whose exhaustion is
reported as timeout. -/
def readTreeLoop (store : List Row) :
    Nat → List (List Nat × List Nat) → List (List Nat) →
    List (List Nat) → List (List Nat) → RTRes
  | 0, _, _, _, _ => .timeout
  | Nat.succ fuel, pfxs, oids, paths, outOids =>
    if oids = [] then .ok paths outOids
    else
      match readObjects store oids with
      | .error _ => .err
      | .ok objs =>
        match processObjs pfxs [] paths outOids objs with
        | none => .fault
        | some (pfxs2, next, paths2, out2) =>
          readTreeLoop store fuel pfxs2 next paths2 out2

/-- ReadTree: resolve a root id to its flat (path, blob id) listing by walking
commit and tree objects. -/
def ReadTree (store : List Row) (fuel : Nat) (oid : List Nat) : RTRes :=
  readTreeLoop store fuel [(oid, [])] [oid] [] []

/-! ## Concrete inputs used by the claim checks -/

/-- Forty times the byte a: a well-formed object id. -/
def exOidA : List Nat := List.replicate 40 97

/-- Forty times the byte b. -/
def exOidX : List Nat := List.replicate 40 98

/-- Forty times the byte c. -/
def exOidY : List Nat := List.replicate 40 99

/-- Commit row A referring to tree Y then parent commit X (a merge-shaped
store: the parent X shares the tree Y with its child A). -/
def exRowA : Row :=
  { oid := exOidA, ty := s2b "commit", zdata := [1], referred := joinComma [exOidY, exOidX] }

/-- Commit row X referring to tree Y. -/
def exRowX : Row :=
  { oid := exOidX, ty := s2b "commit", zdata := [2], referred := joinComma [exOidY] }

/-- Tree row Y with no referred objects. -/
def exRowY : Row :=
  { oid := exOidY, ty := s2b "tree", zdata := [3], referred := [] }

/-- Store of the three rows above. -/
def exStore1 : List Row := [exRowA, exRowX, exRowY]

/-- Destination repository with nothing in it. -/
def emptyRepo : Repo := { present := [], written := [], refs := [] }

/-- Destination repository that already has exOidA. -/
def c7repo : Repo := { present := [exOidA], written := [], refs := [] }

/-- Object with an empty kind string. -/
def c3objEmptyKind : gitObj := { Oid := [], ty := [], Body := [] }

/-- Inflated content of a well-formed blob object: "blob 2\x00hi". -/
def c4content : List Nat := s2b "blob 2" ++ 0 :: s2b "hi"

/-- Valid zlib header and payload for c4content, but a corrupted checksum
trailer: real zlib recovers all the data and then fails the stream. -/
def c4corrupt : List Nat := 120 :: 156 :: c4content ++ [9, 9, 9, 9]

/-- Commit body of 44 bytes: "tree " followed by only 39 bytes, shorter than
one full 40-byte id field. -/
def c5body : List Nat := s2b "tree " ++ List.replicate 39 97

/-- Commit object with the short body above. -/
def c5obj : gitObj := { Oid := [], ty := s2b "commit", Body := c5body }

/-- Inflated content of a commit object whose body is 8 bytes long. -/
def c10content : List Nat := s2b "commit 8" ++ 0 :: s2b "tree abc"

/-- Stored row holding that commit; its key is the derived digest, so the
read path accepts it. -/
def c10row : Row :=
  { oid := sha1hex c10content, ty := s2b "commit",
    zdata := zlibCompress c10content, referred := [] }

/-- Store holding only the short-bodied commit. -/
def c10store : List Row := [c10row]

/-- Forty times the byte d. -/
def c6oid : List Nat := List.replicate 40 100

/-- Source repository holding one blob under c6oid. -/
def c6src : SourceRepo := { objs := [(c6oid, { ty := s2b "blob", Body := s2b "hi" })] }

/-- Source id listing of the imported ref: just the blob. -/
def c6listing : List (List Nat) := [c6oid]

/-- Row the first import of c6src writes. -/
def c6row : Row :=
  { oid := c6oid, ty := s2b "blob",
    zdata := zcontent { Oid := c6oid, ty := s2b "blob", Body := s2b "hi" },
    referred := joinComma [] }

/-- Keyed row used by the collection witness. -/
def c2row : Row := { oid := exOidA, ty := s2b "commit", zdata := [1], referred := [] }

/-- One-row store for the collection witness. -/
def c2store : List Row := [c2row]

/-- Tree body holding one malformed record (no space before its NUL) followed
by one well-formed record "100644 x" with an all-0xff digest. -/
def c8body : List Nat :=
  s2b "abc" ++ 0 :: (List.replicate 20 65 ++ (s2b "100644 x" ++ 0 :: List.replicate 20 255))

/-! ## Foundational lemmas -/

theorem mem_chunksOfAux {x : α} :
    ∀ (f : Nat) (l : List α), l.length ≤ f →
      ((∃ c ∈ chunksOfAux f l, x ∈ c) ↔ x ∈ l) := by
  intro f
  induction f with
  | zero =>
    intro l hl
    have : l = [] := List.length_eq_zero.mp (Nat.le_zero.mp hl)
    subst this
    simp [chunksOfAux]
  | succ f ih =>
    intro l hl
    cases l with
    | nil => simp [chunksOfAux]
    | cons a t =>
      rw [chunksOfAux]
      have hlen : ((a :: t).drop batchRows).length ≤ f := by
        simp at hl ⊢
        simp [batchRows]
        omega
      constructor
      · rintro ⟨c, hc, hx⟩
        rcases List.mem_cons.mp hc with rfl | hc
        · exact List.mem_of_mem_take hx
        · have := (ih _ hlen).mp ⟨c, hc, hx⟩
          exact List.mem_of_mem_drop this
      · intro hx
        by_cases htake : x ∈ (a :: t).take batchRows
        · exact ⟨(a :: t).take batchRows, List.mem_cons_self _ _, htake⟩
        · have hdrop : x ∈ (a :: t).drop batchRows := by
            have := (List.take_append_drop batchRows (a :: t)) ▸ hx
            rcases List.mem_append.mp this with h | h
            · exact absurd h htake
            · exact h
          obtain ⟨c, hc, hxc⟩ := (ih _ hlen).mpr hdrop
          exact ⟨c, List.mem_cons_of_mem _ hc, hxc⟩

theorem mem_chunksOf {l : List α} {x : α} : (∃ c ∈ chunksOf l, x ∈ c) ↔ x ∈ l :=
  mem_chunksOfAux l.length l (Nat.le_refl _)

theorem digitsVal_append_digit (l : List Nat) (d : Nat) :
    digitsVal (l ++ [d]) = digitsVal l * 10 + (d - 48) := by
  simp [digitsVal, List.foldl_append]

theorem natDigitsAux_spec :
    ∀ f n, n ≤ f + 9 →
      digitsVal (natDigitsAux f n) = n ∧
      ∀ b ∈ natDigitsAux f n, isDigitByte b = true := by
  intro f
  induction f with
  | zero =>
    intro n hn
    refine ⟨by simp [natDigitsAux, digitsVal], ?_⟩
    intro b hb
    simp [natDigitsAux] at hb
    simp [hb, isDigitByte]
    omega
  | succ f ih =>
    intro n hn
    by_cases h10 : n < 10
    · refine ⟨by simp [natDigitsAux, h10, digitsVal], ?_⟩
      intro b hb
      simp [natDigitsAux, h10] at hb
      simp [hb, isDigitByte]
      omega
    · have hrec : n / 10 ≤ f + 9 := by omega
      obtain ⟨ihv, ihd⟩ := ih (n / 10) hrec
      constructor
      · rw [natDigitsAux, if_neg h10, digitsVal_append_digit, ihv]
        omega
      · intro b hb
        rw [natDigitsAux, if_neg h10] at hb
        rcases List.mem_append.mp hb with hb | hb
        · exact ihd b hb
        · simp at hb
          simp [hb, isDigitByte]
          have := Nat.mod_lt n (y := 10) (by omega)
          omega

theorem digitsVal_natDigits (n : Nat) : digitsVal (natDigits n) = n :=
  (natDigitsAux_spec n n (by omega)).1

theorem natDigits_isDigit (n : Nat) : ∀ b ∈ natDigits n, isDigitByte b = true :=
  (natDigitsAux_spec n n (by omega)).2

theorem natDigits_ne_nil (n : Nat) : natDigits n ≠ [] := by
  show natDigitsAux n n ≠ []
  cases n with
  | zero => simp [natDigitsAux]
  | succ m =>
    rw [natDigitsAux]
    split <;> simp

theorem nulIndex_append (l₁ l₂ : List Nat) (h : ∀ b ∈ l₁, b ≠ 0) :
    nulIndex (l₁ ++ 0 :: l₂) = l₁.length := by
  induction l₁ with
  | nil => simp [nulIndex]
  | cons a t ih =>
    have ha : a ≠ 0 := h a (List.mem_cons_self _ _)
    simp [nulIndex, ha, ih (fun b hb => h b (List.mem_cons_of_mem _ hb))]

theorem parseTreeAux_total (body : List Nat) (pos startPos spacePos : Nat) :
    (parseTreeAux body pos startPos spacePos).isSome := by
  have main : ∀ n pos startPos spacePos, body.length - pos ≤ n →
      (parseTreeAux body pos startPos spacePos).isSome := by
    intro n
    induction n with
    | zero =>
      intro pos sp spp hn
      rw [parseTreeAux, dif_neg (by omega)]
      rfl
    | succ n ih =>
      intro pos sp spp hn
      rw [parseTreeAux]
      split
      case isFalse => rfl
      case isTrue h1 =>
        rw [dif_pos (by omega)]
        have hrec : body.length - (pos + 1) ≤ n := by omega
        by_cases h32 : body.getD pos 0 = 32
        · rw [if_pos h32]; exact ih _ _ _ hrec
        · rw [if_neg h32]
          by_cases h0 : body.getD pos 0 = 0
          · rw [if_pos h0]
            by_cases hg : sp ≥ spp ∨ spp + 1 ≥ pos
            · rw [if_pos hg]; exact ih _ _ _ hrec
            · rw [if_neg hg, dif_pos (by omega), dif_pos (by omega),
                dif_pos (by omega)]
              have hs := ih (pos + 1) (pos + 21) spp hrec
              cases hpt : parseTreeAux body (pos + 1) (pos + 21) spp with
              | none => rw [hpt] at hs; simp at hs
              | some r => simp [hpt]
          · rw [if_neg h0]; exact ih _ _ _ hrec
  exact main (body.length - pos) pos startPos spacePos (Nat.le_refl _)

theorem adler32_length (l : List Nat) : (adler32 l).length = 4 := rfl

theorem zlibInflate_compress (data : List Nat) :
    zlibInflate (zlibCompress data) = .ok (data, true) := by
  have hlen : (data ++ adler32 data).length = data.length + 4 := by
    rw [List.length_append, adler32_length]
  show zlibInflate (120 :: 156 :: (data ++ adler32 data)) = _
  rw [zlibInflate, hlen, if_neg (by omega)]
  have htake : (data ++ adler32 data).take (data.length + 4 - 4) = data := by
    simp [List.take_append_of_le_length]
  have hdrop : (data ++ adler32 data).drop (data.length + 4 - 4) = adler32 data := by
    simp [List.drop_append_of_le_length]
  rw [htake, hdrop]
  simp

/-! ## Scanner lemmas -/

theorem takeWhile_all {p : Nat → Bool} : ∀ {l : List Nat},
    (∀ x ∈ l, p x = true) → l.takeWhile p = l := by
  intro l
  induction l with
  | nil => simp
  | cons a t ih =>
    intro h
    rw [List.takeWhile_cons, if_pos (h a (List.mem_cons_self _ _))]
    rw [ih (fun x hx => h x (List.mem_cons_of_mem _ hx))]

theorem takeWhile_append_stop {p : Nat → Bool} {y : Nat} {l₂ : List Nat} :
    ∀ {l₁ : List Nat}, (∀ x ∈ l₁, p x = true) → p y = false →
      (l₁ ++ y :: l₂).takeWhile p = l₁ := by
  intro l₁
  induction l₁ with
  | nil =>
    intro _ hy
    simp [List.takeWhile_cons, hy]
  | cons a t ih =>
    intro h hy
    rw [List.cons_append, List.takeWhile_cons, if_pos (h a (List.mem_cons_self _ _))]
    rw [ih (fun x hx => h x (List.mem_cons_of_mem _ hx)) hy]

theorem scanStrB_header (ty ds : List Nat)
    (hne : ty ≠ [])
    (hty : ∀ b ∈ ty, isSpaceByte b = false) :
    scanStrB (ty ++ 32 :: ds) = some (ty, 32 :: ds) := by
  cases ty with
  | nil => exact absurd rfl hne
  | cons a t =>
    have ha : isSpaceByte a = false := hty a (List.mem_cons_self _ _)
    have hdw : (a :: t ++ 32 :: ds).dropWhile isSpaceByte = a :: t ++ 32 :: ds := by
      rw [List.cons_append, List.dropWhile_cons, if_neg (by simp [ha])]
    have htw : (a :: t ++ 32 :: ds).takeWhile (fun b => !isSpaceByte b) = a :: t :=
      takeWhile_append_stop (fun x hx => by simp [hty x hx]) (by simp [isSpaceByte])
    have hlen : (a :: t).length ≤ (a :: t ++ 32 :: ds).length := by simp
    rw [scanStrB]
    simp only [hdw, htw]
    rw [if_neg (by simp)]
    congr 1
    congr 1
    rw [show ((a :: t) ++ 32 :: ds).drop (a :: t).length = 32 :: ds from List.drop_left _ _]

theorem scanIntB_digits (n : Nat) :
    scanIntB (32 :: natDigits n) = some ((n : Int), []) := by
  have hds := natDigits_isDigit n
  have hne := natDigits_ne_nil n
  obtain ⟨d0, dt, hd⟩ : ∃ d0 dt, natDigits n = d0 :: dt := by
    cases h : natDigits n with
    | nil => exact absurd h hne
    | cons a t => exact ⟨a, t, rfl⟩
  have hd0 : isDigitByte d0 = true := hds d0 (by rw [hd]; exact List.mem_cons_self _ _)
  have hd0r : 48 ≤ d0 ∧ d0 ≤ 57 := by simpa [isDigitByte] using hd0
  have hdw : (32 :: natDigits n).dropWhile isSpaceByte = natDigits n := by
    rw [List.dropWhile_cons, if_pos (by simp [isSpaceByte]), hd,
      List.dropWhile_cons, if_neg (by simp [isSpaceByte]; omega)]
  have hhead : (natDigits n).headD 0 = d0 := by rw [hd]; rfl
  have hrun : digitsRun (natDigits n) = some (n, []) := by
    rw [digitsRun, takeWhile_all hds, if_neg hne, digitsVal_natDigits]
    simp
  rw [scanIntB, hdw, scanIntAux, hhead, if_neg (by omega), if_neg (by omega), hrun]
  rfl

/-! ## Codec round-trip and decompression-error behaviour -/

theorem decode_concat (L B ty rest rest2 : List Nat) (sz : Int)
    (hnz : ∀ b ∈ L, b ≠ 0)
    (hL : L ≠ [])
    (hs1 : scanStrB L = some (ty, rest))
    (hs2 : scanIntB rest = some (sz, rest2))
    (hsz : sz = (B.length : Int)) :
    newGitObjFromZcontent (zlibCompress (L ++ 0 :: B)) =
      .ok { Oid := sha1hex (L ++ 0 :: B), ty := ty, Body := B } := by
  have hnul : nulIndex (L ++ 0 :: B) = L.length := nulIndex_append _ _ hnz
  have hLpos : 0 < L.length := List.length_pos.mpr hL
  have hlen : (L ++ 0 :: B).length = L.length + 1 + B.length := by simp; omega
  rw [newGitObjFromZcontent.eq_def, zlibInflate_compress]
  simp only
  rw [hnul, if_neg (by omega)]
  have htake : (L ++ 0 :: B).take L.length = L := List.take_left _ _
  have hdrop : (L ++ 0 :: B).drop (L.length + 1) = B := by
    rw [show L ++ 0 :: B = (L ++ [0]) ++ B by simp,
      show L.length + 1 = (L ++ [0]).length by simp]
    exact List.drop_left _ _
  rw [htake, hdrop]
  simp only [hs1, hs2]
  rw [if_pos hsz]

theorem decode_encode (o : gitObj)
    (hne : o.ty ≠ [])
    (hty : ∀ b ∈ o.ty, isSpaceByte b = false ∧ b ≠ 0 ∧ b < 128) :
    newGitObjFromZcontent (zcontent o) =
      .ok { Oid := sha1hex (o.ty ++ 32 :: natDigits o.Body.length ++ 0 :: o.Body),
            ty := o.ty, Body := o.Body } := by
  have hnz : ∀ b ∈ o.ty ++ 32 :: natDigits o.Body.length, b ≠ 0 := by
    intro b hb
    rcases List.mem_append.mp hb with h | h
    · exact (hty b h).2.1
    · rcases List.mem_cons.mp h with rfl | h
      · omega
      · have := natDigits_isDigit _ b h
        simp [isDigitByte] at this
        omega
  have hkey := decode_concat (o.ty ++ 32 :: natDigits o.Body.length) o.Body
    o.ty (32 :: natDigits o.Body.length) [] (o.Body.length : Int)
    hnz (by simp)
    (scanStrB_header _ _ hne (fun b hb => (hty b hb).1))
    (scanIntB_digits o.Body.length) rfl
  have harr : (o.ty ++ 32 :: natDigits o.Body.length) ++ 0 :: o.Body =
      o.ty ++ 32 :: natDigits o.Body.length ++ 0 :: o.Body := by simp
  rw [zcontent]
  rw [← harr, hkey]

/-- C3 counterexample: the codec round-trip fails for the object whose kind
string is empty (encode produces the header " 0\x00", whose Sscanf parse eats
the length digit as the kind and then finds no integer, so decode returns a
header error rather than the object). -/
theorem c3_counterexample :
    newGitObjFromZcontent (zcontent c3objEmptyKind) = .error .badHeader := by
  rfl

/-- C3 amended: decoding the encoding of an object succeeds and returns the
same kind, the same body, and the id derived from the encoded content,
provided the kind is a nonempty run of ASCII bytes with no whitespace and no
NUL (the header format cannot represent other kinds unambiguously, and the
byte-level scanner model is exact only on ASCII). -/
theorem c3_roundtrip (o : gitObj)
    (hne : o.ty ≠ [])
    (hty : ∀ b ∈ o.ty, isSpaceByte b = false ∧ b ≠ 0 ∧ b < 128) :
    newGitObjFromZcontent (zcontent o) =
      .ok { Oid := sha1hex (o.ty ++ 32 :: natDigits o.Body.length ++ 0 :: o.Body),
            ty := o.ty, Body := o.Body } :=
  decode_encode o hne hty

/-- Closed instance of the round-trip theorem at a blob with body "hi". -/
theorem c3_roundtrip_witness :
    newGitObjFromZcontent (zcontent { Oid := [], ty := s2b "blob", Body := s2b "hi" }) =
      .ok { Oid := sha1hex (s2b "blob" ++ 32 ::
              natDigits (s2b "hi").length ++ 0 :: s2b "hi"),
            ty := s2b "blob", Body := s2b "hi" } :=
  c3_roundtrip { Oid := [], ty := s2b "blob", Body := s2b "hi" }
    (by decide) (by decide)

/-- C4 counterexample: corrupting the checksum trailer of a valid stream makes
zlib decompression fail, yet decode returns full success (the io.Copy error is
discarded and the recovered data is intact), not a CorruptContent error. -/
theorem c4_counterexample :
    zlibFails c4corrupt = true ∧
      newGitObjFromZcontent c4corrupt =
        .ok { Oid := sha1hex c4content, ty := s2b "blob", Body := s2b "hi" } := by
  constructor
  · rfl
  · rfl

/-- C4 amended: decode surfaces a decompression error exactly when the 2-byte
zlib header is rejected (zlib.NewReader fails); errors later in the stream are
ignored, and the recovered bytes flow into the normal header and size checks. -/
theorem c4_zlib_error_iff (z : List Nat) :
    newGitObjFromZcontent z = .error .zlibHeader ↔ zlibInflate z = .error () := by
  rw [newGitObjFromZcontent.eq_def]
  cases hz : zlibInflate z with
  | error e =>
    cases e
    simp
  | ok p =>
    obtain ⟨b, c⟩ := p
    simp only
    constructor
    · intro h
      exfalso
      split at h
      · simp at h
      · split at h
        · simp at h
        · split at h
          · simp at h
          · split at h
            · simp at h
            · simp at h
    · intro h
      simp at h

/-- C5: the commit scan of referredOids slices body[i : i+40] without a bound
check, so it faults at runtime on the 44-byte commit body "tree " + 39 bytes
(shorter than one full id field), instead of stopping cleanly. -/
theorem c5_commit_scan_faults : referredOids c5obj = none := by
  rw [referredOids, if_neg (by decide), if_pos (by decide)]
  rw [commitRefsAux]
  rw [dif_pos (by decide), if_neg (by decide)]

/-- C8: every Go slice access of parseTree stays in bounds on every body (the
checked embedding never trips a guard, in particular it never expects a
digest past len(body) - 20), and on a body holding a malformed record (no
space before its NUL) followed by a well-formed record, the malformed record
is skipped while the well-formed one is still parsed. -/
theorem c8_parseTree_safe :
    (∀ body, parseTreeChecked body = some (parseTree body)) ∧
    parseTree c8body =
      [{ Oid := hexEncode (List.replicate 20 255), Name := s2b "x", Mode := 0 }] := by
  constructor
  · intro body
    obtain ⟨r, hr⟩ := Option.isSome_iff_exists.mp (parseTreeAux_total body 0 0 0)
    show parseTreeAux body 0 0 0 = some ((parseTreeAux body 0 0 0).getD [])
    rw [hr]
    rfl
  · simp +decide [parseTree, parseTreeChecked, parseTreeAux, c8body]

/-- C9 counterexample: the name "refs/tags/v1..2" is not absolute, has no
path-traversal ".." segment, and is of the allow-listed form refs/tags/*, yet
writeRef rejects it, because the code tests for ".." as a plain substring. -/
theorem c9_counterexample :
    writeRef emptyRepo (s2b "refs/tags/v1..2") exOidA = .error () ∧
      specUnsafeRef (s2b "refs/tags/v1..2") = false := by
  constructor
  · rfl
  · rfl

/-- C9 amended: writeRef rejects a name (and writes nothing) exactly when it
is an absolute path, or contains ".." anywhere as a substring, or its
lexically cleaned form is outside HEAD, refs/tags/*, refs/heads/*; every
other name is written, at its cleaned path. -/
theorem c9_writeRef_iff (r : Repo) (ref oid : List Nat) :
    (writeRef r ref oid = .error () ↔ unsafeRefCheck ref = true) ∧
    (unsafeRefCheck ref = false →
      writeRef r ref oid = .ok { r with refs := (cleanPath ref, oid) :: r.refs }) := by
  by_cases h1 : (isAbsPath ref || hasDotDot ref) = true <;>
    by_cases h2 : refAllowed (cleanPath ref) = true <;>
      simp [writeRef, unsafeRefCheck, h1, h2]

/-- Closed instance of the writeRef theorem at the accepted name
"refs/heads/m". -/
theorem c9_writeRef_witness :
    unsafeRefCheck (s2b "refs/heads/m") = false ∧
      writeRef emptyRepo (s2b "refs/heads/m") exOidA =
        .ok { emptyRepo with
              refs := (cleanPath (s2b "refs/heads/m"), exOidA) :: emptyRepo.refs } :=
  ⟨by rfl, (c9_writeRef_iff emptyRepo (s2b "refs/heads/m") exOidA).2 (by rfl)⟩

/-! ## Breadth-first closure correctness -/

theorem mem_queryByOids {store : List Row} {oids : List (List Nat)} {r : Row} :
    r ∈ queryByOids store oids ↔ r ∈ store ∧ r.oid ∈ oids := by
  simp only [queryByOids, List.mem_flatMap]
  constructor
  · rintro ⟨c, hc, hr⟩
    have := List.mem_filter.mp hr
    exact ⟨this.1, mem_chunksOf.mp ⟨c, hc, by simpa using this.2⟩⟩
  · rintro ⟨hrs, hro⟩
    obtain ⟨c, hc, hoc⟩ := mem_chunksOf.mpr hro
    exact ⟨c, hc, List.mem_filter.mpr ⟨hrs, by simpa using hoc⟩⟩

theorem discover_spec : ∀ (l vis nxt : List (List Nat)),
    ∃ d, (discover vis nxt l).2 = nxt ++ d ∧
      (∀ x, x ∈ (discover vis nxt l).1 ↔ x ∈ vis ∨ x ∈ d) ∧
      (∀ x ∈ d, x ∈ l ∧ x ∉ vis ∧ x ≠ []) ∧
      (∀ x ∈ l, x ≠ [] → x ∈ (discover vis nxt l).1) ∧
      d.Nodup := by
  intro l
  induction l with
  | nil =>
    intro vis nxt
    exact ⟨[], by simp [discover], by simp [discover], by simp, by simp, List.nodup_nil⟩
  | cons v vs ih =>
    intro vis nxt
    by_cases hc : v ≠ [] ∧ v ∉ vis
    · have heq : discover vis nxt (v :: vs) = discover (v :: vis) (nxt ++ [v]) vs := by
        simp [discover, hc]
      obtain ⟨d, hd2, hd1, hdp, hall, hnd⟩ := ih (v :: vis) (nxt ++ [v])
      refine ⟨v :: d, ?_, ?_, ?_, ?_, ?_⟩
      · rw [heq, hd2]; simp
      · intro x
        rw [heq, hd1 x]
        simp only [List.mem_cons]
        tauto
      · intro x hx
        rcases List.mem_cons.mp hx with rfl | hxd
        · exact ⟨List.mem_cons_self _ _, hc.2, hc.1⟩
        · obtain ⟨h1, h2, h3⟩ := hdp x hxd
          exact ⟨List.mem_cons_of_mem _ h1,
            fun hxx => h2 (List.mem_cons_of_mem _ hxx), h3⟩
      · intro x hx hxe
        rw [heq]
        rcases List.mem_cons.mp hx with rfl | hxv
        · rw [hd1 x]
          exact Or.inl (List.mem_cons_self _ _)
        · exact hall x hxv hxe
      · refine List.nodup_cons.mpr ⟨?_, hnd⟩
        intro hvd
        exact (hdp v hvd).2.1 (List.mem_cons_self _ _)
    · have heq : discover vis nxt (v :: vs) = discover vis nxt vs := by
        rw [discover, if_neg hc]
      obtain ⟨d, hd2, hd1, hdp, hall, hnd⟩ := ih vis nxt
      refine ⟨d, by rw [heq, hd2], fun x => by rw [heq]; exact hd1 x, ?_, ?_, hnd⟩
      · intro x hx
        obtain ⟨h1, h2, h3⟩ := hdp x hx
        exact ⟨List.mem_cons_of_mem _ h1, h2, h3⟩
      · intro x hx hxe
        rw [heq]
        rcases List.mem_cons.mp hx with rfl | hxv
        · have hxvis : x ∈ vis := by
            rcases not_and_or.mp hc with h | h
            · exact absurd hxe (by simpa using h)
            · simpa using h
          rw [hd1 x]
          exact Or.inl hxvis
        · exact hall x hxv hxe

theorem bfsLoop_sound (store : List Row) (P : List Nat → Prop)
    (hP : ∀ u w, P u → refEdge store u w → P w) :
    ∀ visited result cur, (∀ x ∈ cur, P x) → (∀ x ∈ result, P x) →
      ∀ x ∈ bfsLoop store visited result cur, P x := by
  intro visited result cur
  induction visited, result, cur using bfsLoop.induct store with
  | case1 visited result =>
    intro _ hres x hx
    rw [bfsLoop, if_pos rfl] at hx
    exact hres x hx
  | case2 visited result cur hcur ih =>
    intro hcur' hres x hx
    rw [bfsLoop, if_neg hcur] at hx
    obtain ⟨d, hd2, hd1, hdp, hall, hnodup⟩ :=
      discover_spec (refsOfRows (queryByOids store cur)) visited []
    have hnextP : ∀ y ∈ (discover visited [] (refsOfRows (queryByOids store cur))).2, P y := by
      intro y hy
      rw [hd2] at hy
      simp only [List.nil_append] at hy
      obtain ⟨hyl, _, hyne⟩ := hdp y hy
      simp only [refsOfRows, List.mem_flatMap] at hyl
      obtain ⟨rr, hrr, hysplit⟩ := hyl
      obtain ⟨hrs, hro⟩ := mem_queryByOids.mp hrr
      exact hP rr.oid y (hcur' rr.oid hro) ⟨rr, hrs, rfl, hysplit, hyne⟩
    refine ih hnextP ?_ x hx
    intro y hy
    rcases List.mem_append.mp hy with h | h
    · exact hres y h
    · exact hnextP y h

theorem bfsLoop_complete (store : List Row) :
    ∀ visited result cur,
      (∀ x, x ∈ visited ↔ x ∈ result) →
      (∀ x ∈ cur, x ∈ result) →
      (∀ u, u ∈ visited → u ∉ cur → ∀ w, refEdge store u w → w ∈ visited) →
      (∀ x ∈ result, x ∈ bfsLoop store visited result cur) ∧
      (∀ u w, u ∈ bfsLoop store visited result cur → refEdge store u w →
        w ∈ bfsLoop store visited result cur) := by
  intro visited result cur
  induction visited, result, cur using bfsLoop.induct store with
  | case1 visited result =>
    intro hvr _ hexp
    rw [bfsLoop, if_pos rfl]
    refine ⟨fun x hx => hx, fun u w hu he => ?_⟩
    have hwv := hexp u ((hvr u).mpr hu) (by simp) w he
    exact (hvr w).mp hwv
  | case2 visited result cur hcur ih =>
    intro hvr hcr hexp
    rw [bfsLoop, if_neg hcur]
    obtain ⟨d, hd2, hd1, hdp, hall, hnodup⟩ :=
      discover_spec (refsOfRows (queryByOids store cur)) visited []
    have hd2' : (discover visited [] (refsOfRows (queryByOids store cur))).2 = d := by
      rw [hd2]; simp
    have hvr' : ∀ x, x ∈ (discover visited [] (refsOfRows (queryByOids store cur))).1 ↔
        x ∈ result ++ (discover visited [] (refsOfRows (queryByOids store cur))).2 := by
      intro x
      rw [hd1 x, hd2', List.mem_append, hvr x]
    have hcr' : ∀ x ∈ (discover visited [] (refsOfRows (queryByOids store cur))).2,
        x ∈ result ++ (discover visited [] (refsOfRows (queryByOids store cur))).2 := by
      intro x hx
      exact List.mem_append.mpr (Or.inr hx)
    have hexp' : ∀ u, u ∈ (discover visited [] (refsOfRows (queryByOids store cur))).1 →
        u ∉ (discover visited [] (refsOfRows (queryByOids store cur))).2 →
        ∀ w, refEdge store u w →
          w ∈ (discover visited [] (refsOfRows (queryByOids store cur))).1 := by
      intro u hu hnu w he
      rcases (hd1 u).mp hu with huv | hud
      · by_cases hucur : u ∈ cur
        · obtain ⟨rr, hrs, hroid, hwsplit, hwne⟩ := he
          have hrq : rr ∈ queryByOids store cur :=
            mem_queryByOids.mpr ⟨hrs, by rw [hroid]; exact hucur⟩
          have hwrefs : w ∈ refsOfRows (queryByOids store cur) := by
            simp only [refsOfRows, List.mem_flatMap]
            exact ⟨rr, hrq, hwsplit⟩
          exact hall w hwrefs hwne
        · have := hexp u huv hucur w he
          rw [hd1 w]
          exact Or.inl this
      · exact absurd (hd2' ▸ hud) hnu
    obtain ⟨iha, ihb⟩ := ih hvr' hcr' hexp'
    refine ⟨fun x hx => iha x (List.mem_append.mpr (Or.inl hx)), ihb⟩

theorem bfsOids_mem_iff (store : List Row) (init : List (List Nat)) (x : List Nat) :
    x ∈ bfsOids store init [] ↔ ∃ s ∈ init, Reaches store s x := by
  constructor
  · intro hx
    rw [bfsOids] at hx
    refine bfsLoop_sound store (fun y => ∃ s ∈ init, Reaches store s y)
      ?_ (init ++ []) init init ?_ ?_ x hx
    · rintro u w ⟨s, hs, hr⟩ he
      exact ⟨s, hs, .tail hr he⟩
    · intro y hy
      exact ⟨y, hy, .refl y⟩
    · intro y hy
      exact ⟨y, hy, .refl y⟩
  · rintro ⟨s, hs, hr⟩
    rw [bfsOids]
    obtain ⟨hcompA, hcompB⟩ := bfsLoop_complete store (init ++ []) init init
      (by simp) (fun y hy => hy) (fun u hu hnu => absurd (by simpa using hu) hnu)
    induction hr with
    | refl => exact hcompA s hs
    | tail hr' he ihr => exact hcompB _ _ ihr he

/-! ## Garbage collection -/

theorem deleteBatches_filter :
    ∀ (batches : List (List (List Nat))) (st : List Row),
      deleteBatches st batches =
        st.filter (fun r => decide (¬ ∃ b ∈ batches, r.oid ∈ b)) := by
  intro batches
  induction batches with
  | nil =>
    intro st
    show st = st.filter (fun r => decide (¬ ∃ b ∈ ([] : List (List (List Nat))), r.oid ∈ b))
    exact (List.filter_eq_self.mpr (fun a _ => by simp)).symm
  | cons b bs ih =>
    intro st
    show deleteBatches (st.filter fun r => decide (r.oid ∉ b)) bs = _
    rw [ih, List.filter_filter]
    refine List.filter_congr ?_
    intro r _
    rw [show ((decide (¬∃ b ∈ bs, r.oid ∈ b)) && decide (r.oid ∉ b)) =
      decide ((¬∃ b ∈ bs, r.oid ∈ b) ∧ r.oid ∉ b) by simp]
    rw [decide_eq_decide]
    constructor
    · rintro ⟨h1, h2⟩ ⟨bb, hbb, hrb⟩
      rcases List.mem_cons.mp hbb with rfl | hbs
      · exact h2 hrb
      · exact h1 ⟨bb, hbs, hrb⟩
    · intro h
      exact ⟨fun hex => h ⟨hex.choose, List.mem_cons_of_mem _ hex.choose_spec.1,
          hex.choose_spec.2⟩,
        fun hrb => h ⟨b, List.mem_cons_self _ _, hrb⟩⟩

theorem GC_store_eq (store : List Row) (keep : List (List Nat)) :
    (GC store keep).1 =
      store.filter (fun r => decide (r.oid ∈ bfsOids store keep [])) := by
  show deleteBatches store (chunksOf ((store.map (·.oid)).filter
      (fun o => decide (o ∉ bfsOids store keep [])))) = _
  rw [deleteBatches_filter]
  refine List.filter_congr ?_
  intro r hr
  rw [decide_eq_decide]
  constructor
  · intro h
    by_contra hnot
    have hmem : r.oid ∈ (store.map (·.oid)).filter
        (fun o => decide (o ∉ bfsOids store keep [])) :=
      List.mem_filter.mpr ⟨List.mem_map_of_mem _ hr, by simpa using hnot⟩
    obtain ⟨b, hb, hrb⟩ := mem_chunksOf.mpr hmem
    exact h ⟨b, hb, hrb⟩
  · rintro hreach ⟨b, hb, hrb⟩
    have hmem : r.oid ∈ (store.map (·.oid)).filter
        (fun o => decide (o ∉ bfsOids store keep [])) :=
      mem_chunksOf.mp ⟨b, hb, hrb⟩
    have h2 := (List.mem_filter.mp hmem).2
    simp only [decide_eq_true_eq] at h2
    exact h2 hreach

/-- C2: collection deletes exactly the stored ids outside the breadth-first
closure of the kept ids (computed with an empty skip set), the batched delete
loop leaves exactly the rows whose key is in the closure, the returned list
is exactly the deleted ids in scan order, the closure is exactly reachability
along stored referred edges, and every stored row whose key is reachable from
a kept id is still stored afterwards. -/
theorem c2_gc_spec (store : List Row) (keep : List (List Nat)) :
    (GC store keep).2 =
      (store.map (·.oid)).filter (fun o => decide (o ∉ bfsOids store keep [])) ∧
    (GC store keep).1 =
      store.filter (fun r => decide (r.oid ∈ bfsOids store keep [])) ∧
    (∀ x, x ∈ bfsOids store keep [] ↔ ∃ s ∈ keep, Reaches store s x) ∧
    (∀ r ∈ store, (∃ s ∈ keep, Reaches store s r.oid) → r ∈ (GC store keep).1) := by
  refine ⟨rfl, GC_store_eq store keep, bfsOids_mem_iff store keep, ?_⟩
  intro r hr hreach
  rw [GC_store_eq store keep]
  exact List.mem_filter.mpr ⟨hr, by
    simp only [decide_eq_true_eq]
    exact (bfsOids_mem_iff store keep r.oid).mpr hreach⟩

/-- Closed instance of the collection theorem: a one-row store whose row is
kept is intact after collection. -/
theorem c2_gc_witness : c2row ∈ (GC c2store [exOidA]).1 :=
  (c2_gc_spec c2store [exOidA]).2.2.2 c2row (List.mem_cons_self _ _)
    ⟨exOidA, List.mem_cons_self _ _, .refl exOidA⟩

/-! ## Export -/

theorem refEdgeB_iff {store : List Row} {u v : List Nat} :
    refEdgeB store u v = true ↔ refEdge store u v := by
  simp only [refEdgeB, refEdge, List.any_eq_true, Bool.and_eq_true, decide_eq_true_eq]
  tauto

theorem writeRef_ok (r : Repo) (ref oid : List Nat)
    (h : unsafeRefCheck ref = false) :
    writeRef r ref oid = .ok { r with refs := (cleanPath ref, oid) :: r.refs } := by
  simp only [unsafeRefCheck, Bool.or_eq_false_iff] at h
  rw [writeRef, if_neg (by simp [h.1.1, h.1.2]), if_pos (by simpa using h.2)]

theorem bfsLoop_fresh (store : List Row) (skip : List (List Nat)) :
    ∀ visited result cur,
      result.Nodup →
      (∀ x ∈ result, x ∈ visited) →
      (∀ x ∈ skip, x ∈ visited) →
      (∀ x ∈ result, x ∉ skip) →
      (bfsLoop store visited result cur).Nodup ∧
        ∀ x ∈ bfsLoop store visited result cur, x ∉ skip := by
  intro visited result cur
  induction visited, result, cur using bfsLoop.induct store with
  | case1 visited result =>
    intro hnd hrv _ hrs
    rw [bfsLoop, if_pos rfl]
    exact ⟨hnd, hrs⟩
  | case2 visited result cur hcur ih =>
    intro hnd hrv hsv hrs
    rw [bfsLoop, if_neg hcur]
    obtain ⟨d, hd2, hd1, hdp, hall, hnodup⟩ :=
      discover_spec (refsOfRows (queryByOids store cur)) visited []
    have hd2' : (discover visited [] (refsOfRows (queryByOids store cur))).2 = d := by
      rw [hd2]; simp
    refine ih ?_ ?_ ?_ ?_
    · rw [hd2']
      refine List.Nodup.append hnd hnodup ?_
      intro x hxr hxd
      exact (hdp x hxd).2.1 (hrv x hxr)
    · intro x hx
      rw [hd1 x]
      rw [hd2'] at hx
      rcases List.mem_append.mp hx with h | h
      · exact Or.inl (hrv x h)
      · exact Or.inr h
    · intro x hx
      rw [hd1 x]
      exact Or.inl (hsv x hx)
    · intro x hx
      rw [hd2'] at hx
      rcases List.mem_append.mp hx with h | h
      · exact hrs x h
      · intro hxs
        exact (hdp x h).2.1 (hsv x hxs)

theorem bfsOids_fresh (store : List Row) (init skip : List (List Nat))
    (hnd : init.Nodup) (hdisj : ∀ x ∈ init, x ∉ skip) :
    (bfsOids store init skip).Nodup ∧ ∀ x ∈ bfsOids store init skip, x ∉ skip := by
  rw [bfsOids]
  exact bfsLoop_fresh store skip (init ++ skip) init init hnd
    (fun x hx => List.mem_append.mpr (Or.inl hx))
    (fun x hx => List.mem_append.mpr (Or.inr hx)) hdisj

theorem exportWriteLoop_spec (rows : List Row) :
    ∀ (l : List (List Nat)) (r : Repo),
      (∀ o ∈ l, (zmapGet rows o).isSome = true ∧ 40 ≤ o.length ∧
        o ∉ r.present ∧ o ∉ r.written.map (·.1)) →
      l.Nodup →
      exportWriteLoop r rows l =
        .ok { r with written :=
          r.written ++ l.map (fun o => (o, (zmapGet rows o).getD [])) } := by
  intro l
  induction l with
  | nil =>
    intro r _ _
    show Except.ok r = _
    simp
  | cons o rest ih =>
    intro r hco hnd
    obtain ⟨hsome, hlen, hpres, hwr⟩ := hco o (List.mem_cons_self _ _)
    obtain ⟨z, hz⟩ := Option.isSome_iff_exists.mp hsome
    have hwrite : writeRawObject r o z =
        some { r with written := r.written ++ [(o, z)] } := by
      rw [writeRawObject, if_pos hlen, if_neg (by
        rintro (h | h)
        · exact hpres h
        · exact hwr h)]
    rw [exportWriteLoop]
    simp only [hz, hwrite]
    have hrest := ih { r with written := r.written ++ [(o, z)] } ?_ (List.nodup_cons.mp hnd).2
    · rw [hrest]
      simp only [Except.ok.injEq]
      congr 1
      simp [hz]
    · intro o2 ho2
      obtain ⟨h1, h2, h3, h4⟩ := hco o2 (List.mem_cons_of_mem _ ho2)
      refine ⟨h1, h2, h3, ?_⟩
      simp only [List.map_append, List.map_cons]
      intro hmem
      rcases List.mem_append.mp hmem with h | h
      · exact h4 h
      · have : o2 = o := by simpa using h
        exact (List.nodup_cons.mp hnd).1 (this ▸ ho2)

/-- C1 amended: when the destination lacks the requested id, every closure id
has a content row, ids are full length, no closure id was already written,
and the ref name is accepted, Export succeeds and appends to the destination
exactly the breadth-first closure in reverse discovery order.  Reverse
discovery order means an object discovered later is always written earlier;
it does not order every dependency pair (see the counterexample). -/
theorem c1_export_reverse_order (store : List Row) (r : Repo) (oid ref : List Nat)
    (hhas : hasOid r oid = false)
    (hz : ∀ o ∈ bfsOids store [oid] (listAllOids r),
      (zmapGet (queryByOids store (bfsOids store [oid] (listAllOids r))) o).isSome = true)
    (hlen : ∀ o ∈ bfsOids store [oid] (listAllOids r), 40 ≤ o.length)
    (hw : ∀ o ∈ bfsOids store [oid] (listAllOids r), o ∉ r.written.map (·.1))
    (hsafe : unsafeRefCheck (if ref = [] then s2b "refs/tags/gitdb/" ++ oid else ref) = false) :
    Export store r oid ref =
      .ok ({ present := r.present,
             written := r.written ++ (bfsOids store [oid] (listAllOids r)).reverse.map
               (fun o => (o,
                 (zmapGet (queryByOids store (bfsOids store [oid] (listAllOids r))) o).getD [])),
             refs := (cleanPath (if ref = [] then s2b "refs/tags/gitdb/" ++ oid else ref),
               oid) :: r.refs },
           bfsOids store [oid] (listAllOids r)) := by
  have hoidp : oid ∉ r.present := by
    have h2 := hhas
    rw [hasOid] at h2
    simpa using h2
  have hfresh := bfsOids_fresh store [oid] (listAllOids r) (by simp)
    (by intro x hx; simp at hx; subst hx; exact hoidp)
  have hloop := exportWriteLoop_spec
    (queryByOids store (bfsOids store [oid] (listAllOids r)))
    (bfsOids store [oid] (listAllOids r)).reverse r ?_
    (List.nodup_reverse.mpr hfresh.1)
  · rw [Export.eq_def]
    simp only [hhas, Bool.false_eq_true, if_false, hloop, writeRef_ok _ _ _ hsafe]
  · intro o ho
    have ho' := List.mem_reverse.mp ho
    exact ⟨hz o ho', hlen o ho', hfresh.2 o ho', hw o ho'⟩

/-- C1 counterexample: in a store where commit A refers to tree Y then parent
commit X, and X also refers to Y, exporting A to an empty destination writes
X, then Y, then A — the object X is written before the object Y it depends
on, so reverse breadth-first discovery order does not give dependency order. -/
theorem c1_counterexample :
    Export exStore1 emptyRepo exOidA (s2b "refs/heads/m") =
      .ok ({ present := [],
             written := [(exOidX, [2]), (exOidY, [3]), (exOidA, [1])],
             refs := [(cleanPath (s2b "refs/heads/m"), exOidA)] },
           [exOidA, exOidY, exOidX]) ∧
    refEdgeB exStore1 exOidX exOidY = true := by
  constructor
  · have h1 : bfsOids exStore1 [exOidA] (listAllOids emptyRepo) =
        [exOidA, exOidY, exOidX] := by
      rw [bfsOids, bfsLoop, if_neg (by decide), bfsLoop, if_neg (by decide),
        bfsLoop, if_pos (by decide)]
      decide
    rw [Export.eq_def, h1]
    rfl
  · decide

/-- Closed instance of the reverse-order export theorem on the three-row
store. -/
theorem c1_export_reverse_order_witness :
    Export exStore1 emptyRepo exOidA (s2b "refs/heads/m") =
      .ok ({ present := emptyRepo.present,
             written := emptyRepo.written ++
               (bfsOids exStore1 [exOidA] (listAllOids emptyRepo)).reverse.map
                 (fun o => (o, (zmapGet (queryByOids exStore1
                   (bfsOids exStore1 [exOidA] (listAllOids emptyRepo))) o).getD [])),
             refs := (cleanPath (if s2b "refs/heads/m" = [] then
                 s2b "refs/tags/gitdb/" ++ exOidA else s2b "refs/heads/m"),
               exOidA) :: emptyRepo.refs },
           bfsOids exStore1 [exOidA] (listAllOids emptyRepo)) := by
  have h1 : bfsOids exStore1 [exOidA] (listAllOids emptyRepo) =
      [exOidA, exOidY, exOidX] := by
    rw [bfsOids, bfsLoop, if_neg (by decide), bfsLoop, if_neg (by decide),
      bfsLoop, if_pos (by decide)]
    decide
  exact c1_export_reverse_order exStore1 emptyRepo exOidA (s2b "refs/heads/m")
    (by decide) (by rw [h1]; decide) (by rw [h1]; decide) (by rw [h1]; decide)
    (by decide)

/-- C7 counterexample: the destination already has the id, but the supplied
ref name "foo" is rejected as unsafe, so Export returns an error and does not
(re)point the ref; the claim as stated promises a repoint on every such call. -/
theorem c7_counterexample :
    Export exStore1 c7repo exOidA (s2b "foo") = .error .unsafeRef := by
  rfl

/-- C7 amended: when the destination already contains the requested id and
the ref name (or the generated default tag) is accepted, Export writes no
objects, returns an empty exported-id list, and (re)points the ref at the id. -/
theorem c7_uptodate (store : List Row) (r : Repo) (oid ref : List Nat)
    (hhas : hasOid r oid = true)
    (hsafe : unsafeRefCheck (if ref = [] then s2b "refs/tags/gitdb/" ++ oid else ref) = false) :
    Export store r oid ref =
      .ok ({ r with refs := (cleanPath (if ref = [] then
          s2b "refs/tags/gitdb/" ++ oid else ref), oid) :: r.refs }, []) := by
  rw [Export.eq_def]
  simp only [hhas, if_true, writeRef_ok _ _ _ hsafe]

/-- Closed instance of the up-to-date export theorem, with the generated
default tag name. -/
theorem c7_uptodate_witness :
    Export exStore1 c7repo exOidA [] =
      .ok ({ c7repo with refs := (cleanPath (if ([] : List Nat) = [] then
          s2b "refs/tags/gitdb/" ++ exOidA else []), exOidA) :: c7repo.refs }, []) :=
  c7_uptodate exStore1 c7repo exOidA [] (by decide) (by decide)

/-! ## Import -/

theorem exMapM_mem {f : α → Except ε β} :
    ∀ {l : List α} {bs : List β}, exMapM f l = .ok bs →
      ∀ b ∈ bs, ∃ a ∈ l, f a = .ok b := by
  intro l
  induction l with
  | nil =>
    intro bs h b hb
    rw [exMapM] at h
    cases h
    simp at hb
  | cons a t ih =>
    intro bs h b hb
    rw [exMapM] at h
    cases hfa : f a with
    | error e => rw [hfa] at h; cases h
    | ok b0 =>
      rw [hfa] at h
      cases hrest : exMapM f t with
      | error e => rw [hrest] at h; cases h
      | ok bs0 =>
        rw [hrest] at h
        cases h
        rcases List.mem_cons.mp hb with rfl | hb0
        · exact ⟨a, List.mem_cons_self _ _, hfa⟩
        · obtain ⟨a2, ha2, hfa2⟩ := ih hrest b hb0
          exact ⟨a2, List.mem_cons_of_mem _ ha2, hfa2⟩

theorem srcReadObjects_oids (src : SourceRepo) :
    ∀ (oids : List (List Nat)) (objs : List gitObj),
      srcReadObjects src oids = .ok objs → objs.map (·.Oid) = oids := by
  intro oids
  induction oids with
  | nil =>
    intro objs h
    rw [srcReadObjects, exMapM] at h
    cases h
    simp
  | cons o t ih =>
    intro objs h
    rw [srcReadObjects, exMapM] at h
    cases hl : srcReadOne src o with
    | error e => rw [hl] at h; cases h
    | ok obj =>
      rw [hl] at h
      cases hrest : exMapM (srcReadOne src) t with
      | error e => rw [hrest] at h; cases h
      | ok objs0 =>
        rw [hrest] at h
        cases h
        have hoid : obj.Oid = o := by
          rw [srcReadOne] at hl
          cases hsl : srcLookup src o with
          | none => rw [hsl] at hl; cases hl
          | some so =>
            rw [hsl] at hl
            cases hl
            rfl
        have := ih objs0 hrest
        simp [this, hoid]

theorem rowsOfObjs_oids :
    ∀ (objs : List gitObj) (rows : List Row),
      exMapM rowOfObj objs = .ok rows → rows.map (·.oid) = objs.map (·.Oid) := by
  intro objs
  induction objs with
  | nil =>
    intro rows h
    rw [exMapM] at h
    cases h
    simp
  | cons o t ih =>
    intro rows h
    rw [exMapM] at h
    cases hro : rowOfObj o with
    | error e => rw [hro] at h; cases h
    | ok row =>
      rw [hro] at h
      cases hrest : exMapM rowOfObj t with
      | error e => rw [hrest] at h; cases h
      | ok rows0 =>
        rw [hrest] at h
        cases h
        have hoid : row.oid = o.Oid := by
          rw [rowOfObj] at hro
          cases href : referredOids o with
          | none => rw [href] at hro; cases hro
          | some refs =>
            rw [href] at hro
            cases hro
            rfl
        have := ih rows0 hrest
        simp [this, hoid]

theorem insertAll_append :
    ∀ (rows : List Row) (store st2 : List Row),
      insertAll store rows = .ok st2 → st2 = store ++ rows := by
  intro rows
  induction rows with
  | nil =>
    intro store st2 h
    rw [insertAll] at h
    cases h
    simp
  | cons r rest ih =>
    intro store st2 h
    rw [insertAll] at h
    cases hir : insertRow store r with
    | error e => rw [hir] at h; cases h
    | ok stx =>
      rw [hir] at h
      have hstx : stx = store ++ [r] := by
        rw [insertRow] at hir
        by_cases hdup : store.any (fun q => decide (q.oid = r.oid)) = true
        · rw [if_pos hdup] at hir; cases hir
        · rw [if_neg hdup] at hir
          cases hir
          rfl
      subst hstx
      have := ih (store ++ [r]) st2 h
      simp [this]

theorem mem_minus {a b : List (List Nat)} {x : List Nat} :
    x ∈ minus a b ↔ x ∈ a ∧ x ∉ b := by
  simp [minus]

theorem minus_eq_nil {a b : List (List Nat)} (h : ∀ x ∈ a, x ∈ b) :
    minus a b = [] := by
  rw [minus, List.filter_eq_nil_iff]
  intro x hx
  simp [h x hx]

/-- C6: if Import succeeds, re-running it against the unchanged source (same
listing, same objects) returns the same resolved ref id, an empty imported-id
list, and leaves the store unchanged. -/
theorem c6_import_idempotent (store : List Row) (src : SourceRepo)
    (listing : List (List Nat)) (refOid : List Nat) (ids : List (List Nat))
    (st2 : List Row)
    (h : Import store src listing = .ok (refOid, ids, st2)) :
    Import st2 src listing = .ok (refOid, [], st2) := by
  by_cases hl : listing = []
  · subst hl
    rw [Import, if_pos rfl] at h
    cases h
    rw [Import, if_pos rfl]
  · rw [Import, if_neg hl] at h
    cases hro : srcReadObjects src (unseenOids store listing) with
    | error e => rw [hro] at h; simp at h
    | ok objs =>
      rw [hro] at h
      simp only [] at h
      cases hrows : exMapM rowOfObj objs with
      | error e => rw [hrows] at h; simp at h
      | ok rows =>
        rw [hrows] at h
        simp only [] at h
        cases hins : insertAll store rows with
        | error e => rw [hins] at h; simp at h
        | ok stx =>
          rw [hins] at h
          simp only [Except.ok.injEq, Prod.mk.injEq] at h
          obtain ⟨hrefOid, hids, hstx⟩ := h
          subst hrefOid
          have hst2 : st2 = store ++ rows := by
            rw [← hstx]
            exact insertAll_append rows store stx hins
          have hrowoids : rows.map (·.oid) = unseenOids store listing := by
            rw [rowsOfObjs_oids objs rows hrows,
              srcReadObjects_oids src (unseenOids store listing) objs hro]
          have hcover : ∀ x ∈ listing, ∃ row ∈ st2, row.oid = x := by
            intro x hx
            by_cases hxu : x ∈ unseenOids store listing
            · rw [← hrowoids] at hxu
              obtain ⟨row, hrow, hroweq⟩ := List.mem_map.mp hxu
              exact ⟨row, by rw [hst2]; exact List.mem_append.mpr (Or.inr hrow), hroweq⟩
            · have hxex : x ∈ (queryByOids store listing).map (·.oid) := by
                by_contra hno
                exact hxu (mem_minus.mpr ⟨hx, hno⟩)
              obtain ⟨row, hrow, hroweq⟩ := List.mem_map.mp hxex
              have := (mem_queryByOids.mp hrow).1
              exact ⟨row, by rw [hst2]; exact List.mem_append.mpr (Or.inl this), hroweq⟩
          have hunseen : unseenOids st2 listing = [] := by
            refine minus_eq_nil ?_
            intro x hx
            obtain ⟨row, hrowst, hroweq⟩ := hcover x hx
            refine List.mem_map.mpr ⟨row, ?_, hroweq⟩
            exact mem_queryByOids.mpr ⟨hrowst, by rw [hroweq]; exact hx⟩
          rw [Import, if_neg hl, hunseen]
          rfl

/-- Closed instance of the idempotence theorem: importing the one-blob source
into the store its first import produced is a no-op. -/
theorem c6_import_witness :
    Import [c6row] c6src c6listing = .ok (c6oid, [], [c6row]) :=
  c6_import_idempotent [] c6src c6listing c6oid [c6oid] [c6row] (by rfl)

/-! ## ReadTree -/

theorem lookupObj_mem {m : List (List Nat × gitObj)} {oid : List Nat} {o : gitObj}
    (h : lookupObj m oid = some o) : ∃ p ∈ m, p.2 = o := by
  rw [lookupObj] at h
  cases hg : (m.filter (fun p => decide (p.1 = oid))).getLast? with
  | none => rw [hg] at h; cases h
  | some p =>
    rw [hg] at h
    cases h
    obtain ⟨hne, hpe⟩ := List.mem_getLast?_eq_getLast (Option.mem_def.mpr hg)
    have hp : p ∈ m.filter (fun p => decide (p.1 = oid)) :=
      hpe ▸ List.getLast_mem hne
    exact ⟨p, (List.mem_filter.mp hp).1, rfl⟩

theorem readObjects_decode {store : List Row} {oids : List (List Nat)}
    {objs : List gitObj} (h : readObjects store oids = .ok objs) :
    ∀ o ∈ objs, ∃ r ∈ store, newGitObjFromZcontent r.zdata = .ok o := by
  rw [readObjects] at h
  cases hm : exMapM decodeRow (queryByOids store oids) with
  | error e => rw [hm] at h; simp at h
  | ok m =>
    rw [hm] at h
    simp only [] at h
    intro o ho
    obtain ⟨oid, _, hone⟩ := exMapM_mem h o ho
    have hlk : lookupObj m oid = some o := by
      rw [lookupOne] at hone
      cases hl : lookupObj m oid with
      | none => rw [hl] at hone; cases hone
      | some o2 => rw [hl] at hone; cases hone; rfl
    obtain ⟨p, hpm, hpo⟩ := lookupObj_mem hlk
    obtain ⟨r, hr, hdr⟩ := exMapM_mem hm p hpm
    have hdec : newGitObjFromZcontent r.zdata = .ok p.2 := by
      rw [decodeRow] at hdr
      cases hd : newGitObjFromZcontent r.zdata with
      | error e => rw [hd] at hdr; cases hdr
      | ok o2 =>
        rw [hd] at hdr
        simp only [] at hdr
        by_cases heq : o2.Oid = r.oid
        · rw [if_pos heq] at hdr; cases hdr; rfl
        · rw [if_neg heq] at hdr; cases hdr
    exact ⟨r, (mem_queryByOids.mp hr).1, by rw [hdec, hpo]⟩

theorem procObjs_some :
    ∀ (objs : List gitObj),
      (∀ o ∈ objs, o.ty = s2b "commit" → 45 ≤ o.Body.length) →
      ∀ pfxs next paths outs, (processObjs pfxs next paths outs objs).isSome := by
  intro objs
  induction objs with
  | nil =>
    intro _ pfxs next paths outs
    rw [processObjs]
    rfl
  | cons o rest ih =>
    intro hco pfxs next paths outs
    have hrest := fun o2 ho2 => hco o2 (List.mem_cons_of_mem _ ho2)
    rw [processObjs]
    by_cases hcommit : o.ty = s2b "commit"
    · rw [if_pos hcommit, if_pos (hco o (List.mem_cons_self _ _) hcommit)]
      exact ih hrest _ _ _ _
    · rw [if_neg hcommit]
      by_cases htree : o.ty = s2b "tree"
      · rw [if_pos htree]
        exact ih hrest _ _ _ _
      · rw [if_neg htree]
        exact ih hrest _ _ _ _

theorem readTreeLoop_nofault (store : List Row)
    (hstore : ∀ r ∈ store, ∀ o, newGitObjFromZcontent r.zdata = .ok o →
      o.ty = s2b "commit" → 45 ≤ o.Body.length) :
    ∀ (fuel : Nat) pfxs oids paths outs,
      readTreeLoop store fuel pfxs oids paths outs ≠ .fault := by
  intro fuel
  induction fuel with
  | zero =>
    intro pfxs oids paths outs
    rw [readTreeLoop]
    simp
  | succ f ih =>
    intro pfxs oids paths outs
    rw [readTreeLoop]
    by_cases ho : oids = []
    · rw [if_pos ho]
      simp
    · rw [if_neg ho]
      cases hro : readObjects store oids with
      | error e => simp
      | ok objs =>
        simp only []
        have hcs : ∀ o ∈ objs, o.ty = s2b "commit" → 45 ≤ o.Body.length := by
          intro o hom hty
          obtain ⟨r, hr, hdec⟩ := readObjects_decode hro o hom
          exact hstore r hr o hdec hty
        obtain ⟨q, hsome⟩ := Option.isSome_iff_exists.mp
          (procObjs_some objs hcs pfxs [] paths outs)
        rw [hsome]
        obtain ⟨a, b, c, d⟩ := q
        exact ih a b c d

/-- C10: ReadTree extracts a commit's tree id positionally as body[5:45], so a
stored commit row whose decoded body is 8 bytes long makes it fault (slice
out of range); and the fault branch is the only one, so under the
precondition that every stored commit body is at least 45 bytes, ReadTree
never faults. -/
theorem c10_readtree_fault :
    ReadTree c10store 2 (sha1hex c10content) = .fault ∧
    (∀ store fuel oid,
      (∀ r ∈ store, ∀ o, newGitObjFromZcontent r.zdata = .ok o →
        o.ty = s2b "commit" → 45 ≤ o.Body.length) →
      ReadTree store fuel oid ≠ .fault) := by
  constructor
  · rfl
  · intro store fuel oid hstore
    exact readTreeLoop_nofault store hstore fuel _ _ _ _

/-- Closed instance of the no-fault direction on an empty store. -/
theorem c10_readtree_witness : ReadTree [] 3 (s2b "ab") ≠ .fault :=
  c10_readtree_fault.2 [] 3 (s2b "ab") (by simp)

end Gitdb
